import Mathlib

/-!
Verification of the Okamoto-Uchiyama cryptosystem implementation
(`okamoto.go`): key generation, encryption, decryption and the two
homomorphic combination operations, modelled over arbitrary-precision
integers (`Nat` for the non-negative values the code manipulates, `Int`
where the code's `big.Int` subtraction, Euclidean division `Div`,
Euclidean remainder `Mod` and `ModInverse` are involved).

Byte sequences (`[]byte`) are modelled as lists of naturals; `SetBytes`
is `bytesToNat` (big-endian base-256 value) and `Bytes` is `natToBytes`
(minimal big-endian encoding, empty for zero).

Randomness is made explicit: `GenerateKey` takes the two primes drawn by
`rand.Prime` and the stream of candidate generators drawn by `rand.Int`
inside the rejection-sampling loop (the loop in the code is unbounded, so
the model returns `none` when the modelled stream runs out); `Encrypt`
takes the blinding factor `r` drawn by `rand.Int(N-1)`.
-/

namespace OkamotoUchiyama

/-- Big-endian interpretation of a byte slice as a non-negative integer;
models `new(big.Int).SetBytes(b)`. -/
def bytesToNat (bs : List Nat) : Nat :=
  bs.foldl (fun acc b => acc * 256 + b) 0

/-- Auxiliary recursion for `natToBytes`, structural on a fuel argument
(the fuel never runs out when it starts at the number itself, since the
value shrinks by a factor 256 each step). -/
def natToBytesAux : Nat → Nat → List Nat
  | 0, _ => []
  | f + 1, n => if n = 0 then [] else natToBytesAux f (n / 256) ++ [n % 256]

/-- Minimal big-endian byte encoding of a non-negative integer: no leading
zero byte, and the number zero encodes as the empty slice; models
`(*big.Int).Bytes()`. -/
def natToBytes (n : Nat) : List Nat :=
  natToBytesAux n n

/-- Okamoto-Uchiyama public key `{N, G, H}`. -/
structure PublicKey where
  N : Nat
  G : Nat
  H : Nat
deriving DecidableEq, Repr

/-- Okamoto-Uchiyama private key: embeds the public key (as the Go struct
does) and adds `GD`, `P`, `PSquared`. -/
structure PrivateKey extends PublicKey where
  GD : Nat
  P : Nat
  PSquared : Nat
deriving DecidableEq, Repr

/-- The rejection-sampling loop of `GenerateKey`: walk the stream of
candidates `g` drawn from `rand.Int(n-1)`, computing
`gpminuse1 = (g^(p-1) mod psquare) mod psquare` each turn, and accept the
first candidate whose `gpminuse1` differs from 1 (`Cmp(one) != 0`). -/
def genGLoop (p psquare : Nat) : List Nat → Option (Nat × Nat)
  | [] => none
  | g :: rest =>
      let gpminuse1 := ((g ^ (p - 1)) % psquare) % psquare
      if gpminuse1 ≠ 1 then some (g, gpminuse1) else genGLoop p psquare rest

/-- `GenerateKey`: from the two drawn primes `p`, `q` and the stream `gs`
of candidate generators, build `psquare = p*p`, `n = psquare*q`, select
`g` (with its cached `gpminuse1` as `GD`) by rejection sampling, and set
`h = (g^n mod n) mod n`. -/
def GenerateKey (p q : Nat) (gs : List Nat) : Option PrivateKey :=
  let psquare := p * p
  let n := psquare * q
  match genGLoop p psquare gs with
  | none => none
  | some (g, gpminuse1) =>
      let h := ((g ^ n) % n) % n
      some { N := n, G := g, H := h, GD := gpminuse1, P := p, PSquared := psquare }

/-- Model of `(*big.Int).ModInverse(g, n)`: the multiplicative inverse of
`g` in Z/|n|Z when it exists — the unique `x` in `{0 … |n|-1}` with
`g*x ≡ 1 (mod |n|)` — and `none` (Go: a nil pointer) when `n = 0` or `g`
and `n` are not relatively prime. -/
def modInverse (g n : Int) : Option Int :=
  let m := n.natAbs
  if m = 0 then none
  else ((List.range m).find? fun x : Nat =>
    (g * (x : Int) - 1) % (m : Int) == 0).map fun x : Nat => (x : Int)

/-- `Encrypt`: with blinding factor `r` drawn from `rand.Int(N-1)`, decode
the plaintext as `m`, reject with `ErrLargeMessage` (modelled `none`) when
`m.Cmp(N) == 1`, i.e. when `m > N`, and otherwise return the bytes of
`c = (g^m mod N) * (h^r mod N) mod N`. -/
def Encrypt (pub : PublicKey) (r : Nat) (plainText : List Nat) : Option (List Nat) :=
  let m := bytesToNat plainText
  if pub.N < m then none
  else some (natToBytes (((pub.G ^ m) % pub.N) * ((pub.H ^ r) % pub.N) % pub.N))

/-- Outcome of `Decrypt`. The Go function either returns plaintext bytes,
returns `ErrLargeCipher`, or — when `ModInverse` yields nil and the next
`Mul` dereferences it — crashes; the crash is the third constructor. -/
inductive DecResult where
  | ok (plainText : List Nat) : DecResult
  | errLargeCipher : DecResult
  | nilDereference : DecResult
deriving DecidableEq, Repr

/-- `Decrypt`: decode the ciphertext as `c`, reject with `ErrLargeCipher`
when `c.Cmp(N) == 1` (`c > N`); otherwise compute
`a = c^(p-1) mod psquare`, `l1 = Div(a-1, p)`, `l2 = Div(GD-1, p)` (Go's
`Div` is Euclidean division), `binverse = ModInverse(l2, p)` and return
the bytes of `Mod(l1*binverse, p)`. The Go code does not test `binverse`
for nil, so a failing `ModInverse` is a nil dereference in `Mul`. -/
def Decrypt (priv : PrivateKey) (cipherText : List Nat) : DecResult :=
  let c := bytesToNat cipherText
  if priv.N < c then .errLargeCipher
  else
    let a := (c ^ (priv.P - 1)) % priv.PSquared
    let l1 := ((a : Int) - 1) / (priv.P : Int)
    let l2 := ((priv.GD : Int) - 1) / (priv.P : Int)
    match modInverse l2 (priv.P : Int) with
    | none => .nilDereference
    | some binverse => .ok (natToBytes ((l1 * binverse % (priv.P : Int)).toNat))

/-- `HomomorphicEncTwo`: decode both ciphertexts; return `ErrLargeCipher`
when `cipherA.Cmp(N) == 1 && cipherB.Cmp(N) == 1` (both strictly above
`N`); otherwise the bytes of `c1*c2 mod N`. -/
def HomomorphicEncTwo (pub : PublicKey) (c1 c2 : List Nat) : Option (List Nat) :=
  let cipherA := bytesToNat c1
  let cipherB := bytesToNat c2
  if pub.N < cipherA ∧ pub.N < cipherB then none
  else some (natToBytes (cipherA * cipherB % pub.N))

/-- The loop of `HommorphicEncMultiple` over the remaining ciphertexts,
with accumulator `C` (initially the constant `one`): reject with
`ErrLargeCipher` when a decoded operand exceeds `N`, otherwise fold
`C = C * cipher mod N`. -/
def hommorphicLoop (pub : PublicKey) (C : Nat) : List (List Nat) → Option Nat
  | [] => some C
  | cb :: rest =>
      let cipher := bytesToNat cb
      if pub.N < cipher then none
      else hommorphicLoop pub (C * cipher % pub.N) rest

/-- `HommorphicEncMultiple` (sic): variadic homomorphic combination,
returning the bytes of the accumulator the loop ends with. -/
def HommorphicEncMultiple (pub : PublicKey) (ciphers : List (List Nat)) : Option (List Nat) :=
  (hommorphicLoop pub 1 ciphers).map natToBytes

/-- The integer value `Encrypt` encodes on success (the subexpression
`Mod(Mul(Exp(G,m,N), Exp(H,r,N)), N)` of the source). -/
def encValue (pub : PublicKey) (m r : Nat) : Nat :=
  ((pub.G ^ m) % pub.N) * ((pub.H ^ r) % pub.N) % pub.N

/-! ### The byte encoding -/

theorem natToBytesAux_zero (f : Nat) : natToBytesAux f 0 = [] := by
  cases f <;> simp [natToBytesAux]

theorem natToBytesAux_congr :
    ∀ f1 f2 n, n ≤ f1 → n ≤ f2 → natToBytesAux f1 n = natToBytesAux f2 n := by
  intro f1
  induction f1 with
  | zero =>
      intro f2 n h1 _
      have : n = 0 := Nat.le_zero.mp h1
      subst this
      rw [natToBytesAux_zero, natToBytesAux_zero]
  | succ k ih =>
      intro f2 n h1 h2
      by_cases hn : n = 0
      · subst hn; rw [natToBytesAux_zero, natToBytesAux_zero]
      · obtain ⟨j, rfl⟩ : ∃ j, f2 = j + 1 := ⟨f2 - 1, by omega⟩
        have hlt : n / 256 < n := Nat.div_lt_self (Nat.pos_of_ne_zero hn) (by norm_num)
        simp only [natToBytesAux]
        rw [if_neg hn, if_neg hn, ih j (n / 256) (by omega) (by omega)]

theorem natToBytes_zero : natToBytes 0 = [] := rfl

/-- The defining recursion of `natToBytes`, with the fuel abstracted away. -/
theorem natToBytes_eq (n : Nat) :
    natToBytes n = if n = 0 then [] else natToBytes (n / 256) ++ [n % 256] := by
  by_cases hn : n = 0
  · subst hn; rfl
  · rw [if_neg hn]
    have hlt : n / 256 < n := Nat.div_lt_self (Nat.pos_of_ne_zero hn) (by norm_num)
    obtain ⟨m, rfl⟩ : ∃ m, n = m + 1 := ⟨n - 1, by omega⟩
    simp only [natToBytes, natToBytesAux]
    rw [if_neg hn, natToBytesAux_congr m ((m + 1) / 256) ((m + 1) / 256) (by omega) le_rfl]

theorem bytesToNat_append (bs : List Nat) (b : Nat) :
    bytesToNat (bs ++ [b]) = bytesToNat bs * 256 + b := by
  unfold bytesToNat
  rw [List.foldl_append]
  rfl

theorem bytesToNat_natToBytes (n : Nat) : bytesToNat (natToBytes n) = n := by
  induction n using Nat.strong_induction_on with
  | _ n ih =>
    rw [natToBytes_eq]
    by_cases hn : n = 0
    · subst hn; rfl
    · rw [if_neg hn, bytesToNat_append,
        ih (n / 256) (Nat.div_lt_self (Nat.pos_of_ne_zero hn) (by norm_num))]
      omega

theorem natToBytes_ne_nil {n : Nat} (h : n ≠ 0) : natToBytes n ≠ [] := by
  rw [natToBytes_eq, if_neg h]
  simp

theorem natToBytes_head_ne_zero :
    ∀ n b l, natToBytes n = b :: l → b ≠ 0 := by
  intro n
  induction n using Nat.strong_induction_on with
  | _ n ih =>
    intro b l heq
    rw [natToBytes_eq] at heq
    by_cases hn : n = 0
    · rw [if_pos hn] at heq; cases heq
    · rw [if_neg hn] at heq
      by_cases hd : n / 256 = 0
      · have h256 : n < 256 := by omega
        rw [hd] at heq
        have : natToBytes 0 = [] := rfl
        rw [this, List.nil_append] at heq
        have hb : b = n % 256 := by cases heq; rfl
        rw [hb, Nat.mod_eq_of_lt h256]
        exact hn
      · obtain ⟨hd', tl', hcons⟩ := List.exists_cons_of_ne_nil (natToBytes_ne_nil hd)
        rw [hcons, List.cons_append] at heq
        have hb : b = hd' := by cases heq; rfl
        subst hb
        exact ih (n / 256) (Nat.div_lt_self (Nat.pos_of_ne_zero hn) (by norm_num)) b tl' hcons

/-- A byte slice in minimal big-endian form: it is the canonical encoding
of its value, carries no leading zero byte, and is empty when the value
is zero. -/
def MinimalBigEndian (bs : List Nat) : Prop :=
  natToBytes (bytesToNat bs) = bs ∧ (∀ b l, bs = b :: l → b ≠ 0) ∧
    (bytesToNat bs = 0 → bs = [])

theorem minimalBigEndian_natToBytes (v : Nat) : MinimalBigEndian (natToBytes v) := by
  refine ⟨by rw [bytesToNat_natToBytes], natToBytes_head_ne_zero v, ?_⟩
  intro h0
  rw [bytesToNat_natToBytes] at h0
  subst h0
  rfl

/-! ### Key generation: shape of a generated key -/

theorem genGLoop_spec (p ps : Nat) :
    ∀ (gs : List Nat) (g gd : Nat), genGLoop p ps gs = some (g, gd) →
      gd = ((g ^ (p - 1)) % ps) % ps ∧ gd ≠ 1 ∧ g ∈ gs := by
  intro gs
  induction gs with
  | nil => intro g gd h; cases h
  | cons x rest ih =>
      intro g gd h
      simp only [genGLoop] at h
      split at h
      next hcond =>
        cases h
        exact ⟨rfl, hcond, List.mem_cons_self _ _⟩
      next =>
        obtain ⟨h1, h2, h3⟩ := ih g gd h
        exact ⟨h1, h2, List.mem_cons_of_mem _ h3⟩

/-- Everything `GenerateKey` guarantees about a key it returns: the field
equations of the construction, the rejection-sampling condition on `GD`,
and membership of `G` in the drawn candidate stream. -/
theorem GenerateKey_spec {p q : Nat} {gs : List Nat} {key : PrivateKey}
    (h : GenerateKey p q gs = some key) :
    key.P = p ∧ key.PSquared = p * p ∧ key.N = p * p * q ∧
      key.GD = (key.G ^ (p - 1)) % (p * p) ∧ key.GD ≠ 1 ∧
      key.H = ((key.G ^ key.N) % key.N) % key.N ∧ key.G ∈ gs := by
  simp only [GenerateKey] at h
  cases hg : genGLoop p (p * p) gs with
  | none => rw [hg] at h; cases h
  | some pair =>
      obtain ⟨g, gd⟩ := pair
      rw [hg] at h
      obtain ⟨h1, h2, h3⟩ := genGLoop_spec p (p * p) gs g gd hg
      cases h
      refine ⟨rfl, rfl, rfl, ?_, h2, rfl, h3⟩
      rw [h1, Nat.mod_mod_of_dvd _ (dvd_refl (p * p))]

/-! ### The modular inverse -/

/-- For `p` prime and `k` not a multiple of `p`, `ModInverse(k, p)` finds
the inverse of `k` modulo `p`. -/
theorem modInverse_prime_spec {p k : Nat} (hp : p.Prime) (hk : ¬ p ∣ k) :
    ∃ x : Nat, modInverse (k : Int) (p : Int) = some (x : Int) ∧ x < p ∧
      k * x ≡ 1 [MOD p] := by
  have hp2 := hp.two_le
  have hppos : 0 < p := by omega
  have hcop : Nat.Coprime k p := ((hp.coprime_iff_not_dvd).mpr hk).symm
  have heuler : k ^ (p - 1) ≡ 1 [MOD p] := by
    have h := Nat.ModEq.pow_totient hcop
    rwa [Nat.totient_prime hp] at h
  set w := k ^ (p - 2) % p with hw
  have hwlt : w < p := Nat.mod_lt _ hppos
  have hinv : k * w ≡ 1 [MOD p] := by
    have h1 : k * w ≡ k * k ^ (p - 2) [MOD p] := Nat.ModEq.mul_left k (Nat.mod_modEq _ _)
    have h2 : k * k ^ (p - 2) = k ^ (p - 1) := by
      rw [← pow_succ']
      congr 1
      omega
    exact h1.trans (h2 ▸ heuler)
  have hinv1 : (k * w) % p = 1 := by
    have h1 : (k * w) % p = 1 % p := hinv
    rw [h1, Nat.mod_eq_of_lt (by omega)]
  have hdvdw : ((p : Int)) ∣ ((k : Int) * (w : Int) - 1) := by
    obtain ⟨t, ht⟩ : ∃ t, p * t + 1 = k * w := ⟨(k * w) / p, by
      conv_rhs => rw [← Nat.div_add_mod (k * w) p]
      rw [hinv1]⟩
    refine ⟨(t : Int), ?_⟩
    have h3 := congrArg (fun u : Nat => (u : Int)) ht
    push_cast at h3
    linarith
  have hsome : ((List.range p).find? fun x : Nat =>
      ((k : Int) * (x : Int) - 1) % ((p : Nat) : Int) == 0).isSome := by
    refine List.find?_isSome.mpr ⟨w, List.mem_range.mpr hwlt, ?_⟩
    simp only [beq_iff_eq]
    exact Int.emod_eq_zero_of_dvd hdvdw
  obtain ⟨x', hx'⟩ := Option.isSome_iff_exists.mp hsome
  have hxlt : x' < p := List.mem_range.mp (List.mem_of_find?_eq_some hx')
  have hpred := List.find?_some hx'
  simp only [beq_iff_eq] at hpred
  have hdvdx : ((p : Int)) ∣ ((k : Int) * (x' : Int) - 1) :=
    Int.dvd_of_emod_eq_zero hpred
  have hmodeq : k * x' ≡ 1 [MOD p] := by
    have h1 : (1 : Nat) ≡ k * x' [MOD p] := by
      rw [Nat.modEq_iff_dvd]
      push_cast
      exact hdvdx
    exact h1.symm
  refine ⟨x', ?_, hxlt, hmodeq⟩
  simp only [modInverse, Int.natAbs_ofNat]
  rw [if_neg (by omega), hx']
  rfl

/-- When `ModInverse` succeeds, the result inverts its argument (used to
characterise when `Decrypt` cannot crash). -/
theorem modInverse_isSome_iff (g : Int) (p : Nat) (hp : 0 < p) :
    (modInverse g (p : Int)).isSome ↔ ∃ x : Nat, x < p ∧ (p : Int) ∣ g * (x : Int) - 1 := by
  simp only [modInverse, Int.natAbs_ofNat]
  rw [if_neg (by omega)]
  rw [Option.isSome_map']
  rw [List.find?_isSome]
  constructor
  · rintro ⟨x, hmem, hpred⟩
    simp only [beq_iff_eq] at hpred
    exact ⟨x, List.mem_range.mp hmem, Int.dvd_of_emod_eq_zero hpred⟩
  · rintro ⟨x, hlt, hdvd⟩
    exact ⟨x, List.mem_range.mpr hlt, by
      simp only [beq_iff_eq]
      exact Int.emod_eq_zero_of_dvd hdvd⟩

/-! ### Modular arithmetic toward decryption correctness -/

/-- Binomial congruence mod `p²`: powers of `1 + p*k` are linear in the
exponent modulo `p*p`. -/
theorem one_add_mul_pow_modEq (p k : Nat) :
    ∀ E : Nat, (1 + p * k) ^ E ≡ 1 + E * (p * k) [MOD p * p] := by
  intro E
  induction E with
  | zero => simpa using Nat.ModEq.refl 1
  | succ E ih =>
      have h1 : (1 + p * k) ^ (E + 1) = (1 + p * k) ^ E * (1 + p * k) := by ring
      have h2 : (1 + p * k) ^ E * (1 + p * k) ≡ (1 + E * (p * k)) * (1 + p * k)
          [MOD p * p] := ih.mul_right _
      have h3 : (1 + E * (p * k)) * (1 + p * k) =
          1 + (E + 1) * (p * k) + (p * p) * (E * k * k) := by ring
      have h4 : 1 + (E + 1) * (p * k) + (p * p) * (E * k * k) ≡ 1 + (E + 1) * (p * k)
          [MOD p * p] := by
        show (1 + (E + 1) * (p * k) + (p * p) * (E * k * k)) % (p * p) =
          (1 + (E + 1) * (p * k)) % (p * p)
        exact Nat.add_mul_mod_self_left _ _ _
      rw [h1]
      exact h2.trans (h3 ▸ h4)

/-! ### Equation lemmas for the operations -/

theorem Decrypt_eq_errLargeCipher {priv : PrivateKey} {ct : List Nat}
    (h : priv.N < bytesToNat ct) : Decrypt priv ct = DecResult.errLargeCipher := by
  simp only [Decrypt]
  rw [if_pos h]

theorem Decrypt_eq_nilDereference {priv : PrivateKey} {ct : List Nat}
    (hle : ¬ priv.N < bytesToNat ct)
    (hmi : modInverse (((priv.GD : Int) - 1) / (priv.P : Int)) (priv.P : Int) = none) :
    Decrypt priv ct = DecResult.nilDereference := by
  simp only [Decrypt]
  rw [if_neg hle, hmi]

theorem Decrypt_eq_ok (priv : PrivateKey) (ct : List Nat) (binv : Int)
    (hle : ¬ priv.N < bytesToNat ct)
    (hmi : modInverse (((priv.GD : Int) - 1) / (priv.P : Int)) (priv.P : Int) = some binv) :
    Decrypt priv ct = DecResult.ok (natToBytes
      (((((bytesToNat ct ^ (priv.P - 1) % priv.PSquared : Nat) : Int) - 1) / (priv.P : Int)
        * binv % (priv.P : Int)).toNat)) := by
  simp only [Decrypt]
  rw [if_neg hle, hmi]

theorem Encrypt_eq_some {pub : PublicKey} {r : Nat} {pt : List Nat}
    (h : bytesToNat pt ≤ pub.N) :
    Encrypt pub r pt = some (natToBytes (encValue pub (bytesToNat pt) r)) := by
  simp only [Encrypt, encValue]
  rw [if_neg (not_lt.mpr h)]

/-! ### Correctness of decryption on ciphertexts congruent to a power of G -/

/-- Core correctness of `Decrypt`: for a key whose fields satisfy the
equations `GenerateKey` establishes, with `p` prime, `GD ≠ 1` and `G` not
a multiple of `p`, any in-bound ciphertext whose value is congruent to
`G^E` modulo `p²` decrypts to the bytes of `E mod p`. -/
theorem Decrypt_ok_of_congr (priv : PrivateKey) (p : Nat) (hp : p.Prime)
    (hP : priv.P = p) (hPS : priv.PSquared = p * p)
    (hGD : priv.GD = (priv.G ^ (p - 1)) % (p * p)) (hGD1 : priv.GD ≠ 1)
    (hG : ¬ p ∣ priv.G) (ct : List Nat) (E : Nat)
    (hle : bytesToNat ct ≤ priv.N)
    (hcE : bytesToNat ct ≡ priv.G ^ E [MOD p * p]) :
    Decrypt priv ct = DecResult.ok (natToBytes (E % p)) := by
  have hp2 := hp.two_le
  have hppos : 0 < p := by omega
  have hpspos : 0 < p * p := by positivity
  -- Fermat: G^(p-1) ≡ 1 mod p
  have hcop : Nat.Coprime priv.G p := ((hp.coprime_iff_not_dvd).mpr hG).symm
  have hferm : priv.G ^ (p - 1) ≡ 1 [MOD p] := by
    have h := Nat.ModEq.pow_totient hcop
    rwa [Nat.totient_prime hp] at h
  -- GD = 1 + p * kk with 0 < kk < p
  have hGDm : priv.GD % p = 1 := by
    rw [hGD, Nat.mod_mod_of_dvd _ (⟨p, rfl⟩ : p ∣ p * p)]
    have h1 : priv.G ^ (p - 1) % p = 1 % p := hferm
    rw [h1, Nat.mod_eq_of_lt (by omega)]
  have hGDpos : 0 < priv.GD := by
    rcases Nat.eq_zero_or_pos priv.GD with h | h
    · rw [h] at hGDm; simp at hGDm
    · exact h
  have hGDlt : priv.GD < p * p := by rw [hGD]; exact Nat.mod_lt _ hpspos
  have hGDdvd : p ∣ priv.GD - 1 := by
    have h1 : (1 : Nat) ≡ priv.GD [MOD p] := by
      show 1 % p = priv.GD % p
      rw [hGDm, Nat.mod_eq_of_lt (by omega)]
    exact (Nat.modEq_iff_dvd' hGDpos).mp h1
  set kk := (priv.GD - 1) / p with hkk
  have hkkmul : p * kk = priv.GD - 1 := Nat.mul_div_cancel' hGDdvd
  have hGDeq : priv.GD = 1 + p * kk := by omega
  have hkklt : kk < p := by
    have h1 : p * kk < p * p := by omega
    exact lt_of_mul_lt_mul_left h1 (Nat.zero_le p)
  have hkkne : kk ≠ 0 := by
    intro h0
    rw [h0, Nat.mul_zero] at hkkmul
    exact hGD1 (by omega)
  have hpkk : ¬ p ∣ kk := by
    intro hd
    have := Nat.le_of_dvd (Nat.pos_of_ne_zero hkkne) hd
    omega
  obtain ⟨x, hmi, hxlt, hxinv⟩ := modInverse_prime_spec hp hpkk
  -- the exponentiated ciphertext a ≡ GD^E ≡ 1 + E*(p*kk) mod p²
  have haGD : bytesToNat ct ^ (p - 1) % (p * p) ≡ priv.GD ^ E [MOD p * p] := by
    have h1 : bytesToNat ct ^ (p - 1) % (p * p) ≡ bytesToNat ct ^ (p - 1) [MOD p * p] :=
      Nat.mod_modEq _ _
    have h2 : bytesToNat ct ^ (p - 1) ≡ (priv.G ^ E) ^ (p - 1) [MOD p * p] := hcE.pow _
    have h3 : (priv.G ^ E) ^ (p - 1) = (priv.G ^ (p - 1)) ^ E := by
      rw [← pow_mul, ← pow_mul, mul_comm]
    have h4 : priv.GD ≡ priv.G ^ (p - 1) [MOD p * p] := by
      rw [hGD]; exact Nat.mod_modEq _ _
    exact h1.trans (h2.trans (h3 ▸ (h4.symm.pow E)))
  have haBin : bytesToNat ct ^ (p - 1) % (p * p) ≡ 1 + E * (p * kk) [MOD p * p] := by
    refine haGD.trans ?_
    rw [hGDeq]
    exact one_add_mul_pow_modEq p kk E
  have halt : bytesToNat ct ^ (p - 1) % (p * p) < p * p := Nat.mod_lt _ hpspos
  have ham : bytesToNat ct ^ (p - 1) % (p * p) % p = 1 := by
    have h1 : bytesToNat ct ^ (p - 1) % (p * p) ≡ 1 + E * (p * kk) [MOD p] :=
      Nat.ModEq.of_mul_left p haBin
    have h2 : (1 + E * (p * kk)) % p = 1 := by
      have e : 1 + E * (p * kk) = 1 + p * (E * kk) := by ring
      rw [e, Nat.add_mul_mod_self_left, Nat.mod_eq_of_lt (by omega)]
    calc bytesToNat ct ^ (p - 1) % (p * p) % p = (1 + E * (p * kk)) % p := h1
      _ = 1 := h2
  have hapos : 0 < bytesToNat ct ^ (p - 1) % (p * p) := by
    rcases Nat.eq_zero_or_pos (bytesToNat ct ^ (p - 1) % (p * p)) with h | h
    · rw [h] at ham; simp at ham
    · exact h
  have hadvd : p ∣ bytesToNat ct ^ (p - 1) % (p * p) - 1 := by
    have h1 : (1 : Nat) ≡ bytesToNat ct ^ (p - 1) % (p * p) [MOD p] := by
      show 1 % p = _ % p
      rw [ham, Nat.mod_eq_of_lt (by omega)]
    exact (Nat.modEq_iff_dvd' hapos).mp h1
  set s := (bytesToNat ct ^ (p - 1) % (p * p) - 1) / p with hs
  have hsmul : p * s = bytesToNat ct ^ (p - 1) % (p * p) - 1 := Nat.mul_div_cancel' hadvd
  have hsE : s ≡ E * kk [MOD p] := by
    have h1 : 1 + p * s ≡ 1 + p * (E * kk) [MOD p * p] := by
      have e1 : 1 + p * s = bytesToNat ct ^ (p - 1) % (p * p) := by omega
      rw [e1, show 1 + p * (E * kk) = 1 + E * (p * kk) by ring]
      exact haBin
    have h2 : p * s ≡ p * (E * kk) [MOD p * p] := Nat.ModEq.add_left_cancel' 1 h1
    exact Nat.ModEq.mul_left_cancel' (by omega) h2
  -- the value of l2 and the modular inverse
  have hGDcast : (priv.GD : Int) - 1 = (p : Int) * (kk : Int) := by
    have h2 := congrArg (fun u : Nat => (u : Int)) hGDeq
    push_cast at h2
    linarith
  have hl2 : ((priv.GD : Int) - 1) / (priv.P : Int) = (kk : Int) := by
    rw [hP, hGDcast]
    exact Int.mul_ediv_cancel_left _ (by exact_mod_cast hppos.ne')
  have hmi2 : modInverse (((priv.GD : Int) - 1) / (priv.P : Int)) (priv.P : Int) =
      some (x : Int) := by
    rw [hl2, hP]
    exact hmi
  -- the value of l1
  have hacast : ((bytesToNat ct ^ (p - 1) % (p * p) : Nat) : Int) - 1 =
      (p : Int) * (s : Int) := by
    have h1 : ((bytesToNat ct ^ (p - 1) % (p * p) - 1 : Nat) : Int) =
        ((bytesToNat ct ^ (p - 1) % (p * p) : Nat) : Int) - 1 := by
      rw [Nat.cast_sub hapos, Nat.cast_one]
    rw [← h1, ← hsmul, Nat.cast_mul]
  have hl1 : (((bytesToNat ct ^ (p - 1) % (p * p) : Nat) : Int) - 1) / (p : Int) =
      (s : Int) := by
    rw [hacast]
    exact Int.mul_ediv_cancel_left _ (by exact_mod_cast hppos.ne')
  -- the final modular computation
  have m2 : (kk : Int) * (x : Int) ≡ 1 [ZMOD (p : Int)] := by
    have h1 := Int.natCast_modEq_iff.mpr hxinv
    push_cast at h1
    exact h1
  have m1 : (s : Int) ≡ ((E * kk : Nat) : Int) [ZMOD (p : Int)] :=
    Int.natCast_modEq_iff.mpr hsE
  have hsx : (s : Int) * (x : Int) ≡ (E : Int) [ZMOD (p : Int)] := by
    have h1 : (s : Int) * (x : Int) ≡ ((E * kk : Nat) : Int) * (x : Int)
        [ZMOD (p : Int)] := m1.mul_right _
    have e : ((E * kk : Nat) : Int) * (x : Int) = (E : Int) * ((kk : Int) * (x : Int)) := by
      push_cast
      ring
    have h3 : (E : Int) * ((kk : Int) * (x : Int)) ≡ (E : Int) * 1 [ZMOD (p : Int)] :=
      m2.mul_left _
    have h4 := h1.trans (e ▸ h3)
    simpa using h4
  have hfin : (s : Int) * (x : Int) % (p : Int) = ((E % p : Nat) : Int) :=
    hsx.eq.trans (Int.natCast_mod E p).symm
  -- assemble
  rw [Decrypt_eq_ok priv ct (x : Int) (not_lt.mpr hle) hmi2, hP, hPS, hl1, hfin,
    Int.toNat_natCast]

/-- The value produced by encryption is below `N` and congruent to
`G^(m + N*r)` modulo `p²` (`H ≡ G^N` holds already modulo `p²` because
`p² ∣ N`). -/
theorem encValue_spec (pub : PublicKey) (p q : Nat) (hN : pub.N = p * p * q)
    (hH : pub.H = ((pub.G ^ pub.N) % pub.N) % pub.N) (hNpos : 0 < pub.N)
    (m r : Nat) :
    encValue pub m r ≡ pub.G ^ (m + pub.N * r) [MOD p * p] ∧ encValue pub m r < pub.N := by
  have hred : ∀ x y : Nat, x ≡ y [MOD pub.N] → x ≡ y [MOD p * p] := by
    intro x y hxy
    rw [hN] at hxy
    exact Nat.ModEq.of_mul_right q hxy
  constructor
  · have e1 : encValue pub m r ≡ ((pub.G ^ m) % pub.N) * ((pub.H ^ r) % pub.N)
        [MOD p * p] := hred _ _ (Nat.mod_modEq _ _)
    have e2 : (pub.G ^ m) % pub.N ≡ pub.G ^ m [MOD p * p] := hred _ _ (Nat.mod_modEq _ _)
    have e3 : pub.H ≡ pub.G ^ pub.N [MOD p * p] := by
      rw [hH]
      exact hred _ _ ((Nat.mod_modEq _ _).trans (Nat.mod_modEq _ _))
    have e4 : (pub.H ^ r) % pub.N ≡ (pub.G ^ pub.N) ^ r [MOD p * p] :=
      (hred _ _ (Nat.mod_modEq _ _)).trans (e3.pow r)
    have e5 : encValue pub m r ≡ pub.G ^ m * (pub.G ^ pub.N) ^ r [MOD p * p] :=
      e1.trans (e2.mul e4)
    have e6 : pub.G ^ m * (pub.G ^ pub.N) ^ r = pub.G ^ (m + pub.N * r) := by
      rw [← pow_mul, ← pow_add]
    rw [← e6]
    exact e5
  · simp only [encValue]
    exact Nat.mod_lt _ hNpos

/-- The loop of the variadic combiner, fed byte encodings of encryption
values, succeeds and accumulates the product — congruent to `G` raised to
the sum of the blinded exponents — while staying below `N`. -/
theorem hommorphicLoop_spec (pub : PublicKey) (p q : Nat) (hN : pub.N = p * p * q)
    (hH : pub.H = ((pub.G ^ pub.N) % pub.N) % pub.N) (hNpos : 0 < pub.N) :
    ∀ (pairs : List (Nat × Nat)) (acc accE : Nat),
      acc ≡ pub.G ^ accE [MOD p * p] → acc ≤ pub.N →
      ∃ v, hommorphicLoop pub acc
          (pairs.map fun mr => natToBytes (encValue pub mr.1 mr.2)) = some v ∧
        v ≡ pub.G ^ (accE + (pairs.map fun mr => mr.1 + pub.N * mr.2).sum) [MOD p * p] ∧
        v ≤ pub.N := by
  intro pairs
  induction pairs with
  | nil =>
      intro acc accE hacc hle
      exact ⟨acc, rfl, by simpa using hacc, hle⟩
  | cons mr rest ih =>
      intro acc accE hacc hle
      obtain ⟨hcong, hlt⟩ := encValue_spec pub p q hN hH hNpos mr.1 mr.2
      have hred : ∀ x y : Nat, x ≡ y [MOD pub.N] → x ≡ y [MOD p * p] := by
        intro x y hxy
        rw [hN] at hxy
        exact Nat.ModEq.of_mul_right q hxy
      have hacc' : acc * encValue pub mr.1 mr.2 % pub.N ≡
          pub.G ^ (accE + (mr.1 + pub.N * mr.2)) [MOD p * p] := by
        have h1 : acc * encValue pub mr.1 mr.2 % pub.N ≡
            acc * encValue pub mr.1 mr.2 [MOD p * p] := hred _ _ (Nat.mod_modEq _ _)
        have h2 : acc * encValue pub mr.1 mr.2 ≡
            pub.G ^ accE * pub.G ^ (mr.1 + pub.N * mr.2) [MOD p * p] := hacc.mul hcong
        have h3 : pub.G ^ accE * pub.G ^ (mr.1 + pub.N * mr.2) =
            pub.G ^ (accE + (mr.1 + pub.N * mr.2)) := by rw [← pow_add]
        exact h1.trans (h3 ▸ h2)
      have hle' : acc * encValue pub mr.1 mr.2 % pub.N ≤ pub.N :=
        le_of_lt (Nat.mod_lt _ hNpos)
      obtain ⟨v, hv1, hv2, hv3⟩ := ih _ _ hacc' hle'
      refine ⟨v, ?_, ?_, hv3⟩
      · simp only [List.map_cons, hommorphicLoop, bytesToNat_natToBytes]
        rw [if_neg (not_lt.mpr (le_of_lt hlt))]
        exact hv1
      · simp only [List.map_cons, List.sum_cons]
        rw [← add_assoc]
        exact hv2

/-- Dropping the blinding part of each exponent: the sum of `mᵢ + N*rᵢ`
is congruent to the sum of the `mᵢ` modulo any divisor `p` of `N`. -/
theorem sum_blinded_modEq (nn p : Nat) (hd : p ∣ nn) :
    ∀ pairs : List (Nat × Nat),
      (pairs.map fun mr => mr.1 + nn * mr.2).sum ≡ (pairs.map Prod.fst).sum [MOD p] := by
  intro pairs
  induction pairs with
  | nil => exact Nat.ModEq.refl 0
  | cons mr rest ih =>
      simp only [List.map_cons, List.sum_cons]
      refine Nat.ModEq.add ?_ ih
      obtain ⟨t, rfl⟩ := hd
      rw [show mr.1 + p * t * mr.2 = mr.1 + p * (t * mr.2) by ring]
      show (mr.1 + p * (t * mr.2)) % p = mr.1 % p
      exact Nat.add_mul_mod_self_left _ _ _

/-! ### Claim C1: encryption/decryption round trip -/

/-- C1 (amended): for every freshly generated private key **whose
generator `G` is not a multiple of `P`**, and every plaintext `m < P` and
blinding factor `r`, encryption succeeds and decrypting the resulting
ciphertext returns the original plaintext bytes. (The coprimality proviso
is forced: rejection sampling accepts multiples of `P`, see the
counterexample.) -/
theorem claim1_roundtrip (p q : Nat) (gs : List Nat) (key : PrivateKey)
    (hp : p.Prime) (hq : q.Prime) (hgen : GenerateKey p q gs = some key)
    (hG : ¬ p ∣ key.G) (m r : Nat) (hm : m < p) :
    ∃ ct, Encrypt key.toPublicKey r (natToBytes m) = some ct ∧
      Decrypt key ct = DecResult.ok (natToBytes m) := by
  obtain ⟨hP, hPS, hN, hGD, hGD1, hH, -⟩ := GenerateKey_spec hgen
  have hp2 := hp.two_le
  have hq2 := hq.two_le
  have hNpos : 0 < key.N := by
    rw [hN]
    exact Nat.mul_pos (Nat.mul_pos (by omega) (by omega)) (by omega)
  have hpN : p ≤ key.N := by
    rw [hN]
    calc p = p * 1 := (Nat.mul_one p).symm
      _ ≤ p * (p * q) := Nat.mul_le_mul_left p (Nat.mul_pos (by omega) (by omega))
      _ = p * p * q := by ring
  have hmb : bytesToNat (natToBytes m) = m := bytesToNat_natToBytes m
  have hmle : bytesToNat (natToBytes m) ≤ key.toPublicKey.N := by rw [hmb]; omega
  refine ⟨_, Encrypt_eq_some hmle, ?_⟩
  rw [hmb]
  obtain ⟨hcong, hlt⟩ := encValue_spec key.toPublicKey p q hN hH hNpos m r
  have hrb : bytesToNat (natToBytes (encValue key.toPublicKey m r)) =
      encValue key.toPublicKey m r := bytesToNat_natToBytes _
  have hdec := Decrypt_ok_of_congr key p hp hP hPS hGD hGD1 hG
    (natToBytes (encValue key.toPublicKey m r)) (m + key.N * r)
    (by rw [hrb]; exact le_of_lt hlt) (by rw [hrb]; exact hcong)
  rw [hdec]
  have hmod : (m + key.N * r) % p = m := by
    obtain ⟨t, ht⟩ : p ∣ key.N := by
      rw [hN]
      exact ⟨p * q, by ring⟩
    rw [ht, show m + p * t * r = m + p * (t * r) by ring, Nat.add_mul_mod_self_left,
      Nat.mod_eq_of_lt hm]
  rw [hmod]

/-- C1 witness: a concrete generated key (p = q = 3, candidate stream
[2]), plaintext 2 and blinding factor 1, with the hypotheses discharged by
computation. -/
theorem claim1_roundtrip_witness :
    Nat.Prime 3 ∧ GenerateKey 3 3 [2] = some ⟨⟨27, 2, 26⟩, 4, 3, 9⟩ ∧
    ¬ 3 ∣ (⟨⟨27, 2, 26⟩, 4, 3, 9⟩ : PrivateKey).G ∧ (2 : Nat) < 3 ∧
    ∃ ct, Encrypt (⟨⟨27, 2, 26⟩, 4, 3, 9⟩ : PrivateKey).toPublicKey 1 (natToBytes 2) =
        some ct ∧
      Decrypt ⟨⟨27, 2, 26⟩, 4, 3, 9⟩ ct = DecResult.ok (natToBytes 2) :=
  ⟨by norm_num, by decide, by decide, by norm_num,
    claim1_roundtrip 3 3 [2] ⟨⟨27, 2, 26⟩, 4, 3, 9⟩ (by norm_num) (by norm_num)
      (by decide) (by decide) 2 1 (by norm_num)⟩

/-- C1 counterexample: the claim as stated is false. The key generated
from primes 3, 3 and candidate stream [3] (a legal draw from {0..25})
accepts G = 3, a multiple of P; encrypting the valid plaintext 2 < P = 3
with blinding factor 0 and decrypting returns the bytes of 1, not of 2. -/
theorem claim1_roundtrip_refuted :
    GenerateKey 3 3 [3] = some ⟨⟨27, 3, 0⟩, 0, 3, 9⟩ ∧
    (2 : Nat) < (⟨⟨27, 3, 0⟩, 0, 3, 9⟩ : PrivateKey).P ∧
    Encrypt (⟨⟨27, 3, 0⟩, 0, 3, 9⟩ : PrivateKey).toPublicKey 0 (natToBytes 2) = some [9] ∧
    Decrypt ⟨⟨27, 3, 0⟩, 0, 3, 9⟩ [9] = DecResult.ok [1] ∧
    DecResult.ok [1] ≠ DecResult.ok (natToBytes 2) := by
  decide

/-! ### Claim C7: consistency invariants of generated keys -/

/-- C7: every successfully generated private key satisfies
`PSquared = P * P`, `N = PSquared * Q` for the prime `Q` drawn at
generation time, and `GD = G^(P-1) mod PSquared` with `GD ≠ 1`. -/
theorem claim7_key_consistency (p q : Nat) (gs : List Nat) (key : PrivateKey)
    (hp : p.Prime) (hq : q.Prime) (hgen : GenerateKey p q gs = some key) :
    key.PSquared = key.P * key.P ∧ key.N = key.PSquared * q ∧
      key.GD = key.G ^ (key.P - 1) % key.PSquared ∧ key.GD ≠ 1 := by
  obtain ⟨hP, hPS, hN, hGD, hGD1, -, -⟩ := GenerateKey_spec hgen
  refine ⟨?_, ?_, ?_, hGD1⟩
  · rw [hPS, hP]
  · rw [hN, hPS]
  · rw [hGD, hP, hPS]

/-- C7 witness at the concrete generated key for p = q = 3, candidates [2]. -/
theorem claim7_key_consistency_witness :
    Nat.Prime 3 ∧ GenerateKey 3 3 [2] = some ⟨⟨27, 2, 26⟩, 4, 3, 9⟩ ∧
    ((⟨⟨27, 2, 26⟩, 4, 3, 9⟩ : PrivateKey).PSquared =
        (⟨⟨27, 2, 26⟩, 4, 3, 9⟩ : PrivateKey).P * (⟨⟨27, 2, 26⟩, 4, 3, 9⟩ : PrivateKey).P ∧
      (⟨⟨27, 2, 26⟩, 4, 3, 9⟩ : PrivateKey).N =
        (⟨⟨27, 2, 26⟩, 4, 3, 9⟩ : PrivateKey).PSquared * 3 ∧
      (⟨⟨27, 2, 26⟩, 4, 3, 9⟩ : PrivateKey).GD =
        (⟨⟨27, 2, 26⟩, 4, 3, 9⟩ : PrivateKey).G ^
            ((⟨⟨27, 2, 26⟩, 4, 3, 9⟩ : PrivateKey).P - 1) %
          (⟨⟨27, 2, 26⟩, 4, 3, 9⟩ : PrivateKey).PSquared ∧
      (⟨⟨27, 2, 26⟩, 4, 3, 9⟩ : PrivateKey).GD ≠ 1) :=
  ⟨by norm_num, by decide,
    claim7_key_consistency 3 3 [2] ⟨⟨27, 2, 26⟩, 4, 3, 9⟩ (by norm_num) (by norm_num)
      (by decide)⟩

/-! ### Claim C8: range of the generator G -/

/-- C8 (amended): the generator of a generated key is never 1 (a candidate
1 has `1^(P-1) mod PSquared = 1` and is rejected) and is at most `N - 2`
(candidates are drawn from `{0 … N-2}`); but `G` may be 0, so the claimed
lower bound `2 ≤ G` does not hold. -/
theorem claim8_generator_range (p q : Nat) (gs : List Nat) (key : PrivateKey)
    (hp : p.Prime) (hq : q.Prime)
    (hgs : ∀ g ∈ gs, g < p * p * q - 1)
    (hgen : GenerateKey p q gs = some key) :
    key.G ≠ 1 ∧ key.G < key.N - 1 := by
  obtain ⟨hP, hPS, hN, hGD, hGD1, -, hmem⟩ := GenerateKey_spec hgen
  have hp2 := hp.two_le
  constructor
  · intro h1
    apply hGD1
    rw [hGD, h1, one_pow]
    have hlt1 : (1 : Nat) < p * p := by nlinarith
    rw [Nat.mod_eq_of_lt hlt1]
  · rw [hN]
    exact hgs _ hmem

/-- C8 witness at the concrete generated key for p = q = 3, candidates [2]. -/
theorem claim8_generator_range_witness :
    Nat.Prime 3 ∧ (∀ g ∈ [2], g < 3 * 3 * 3 - 1) ∧
    GenerateKey 3 3 [2] = some ⟨⟨27, 2, 26⟩, 4, 3, 9⟩ ∧
    ((⟨⟨27, 2, 26⟩, 4, 3, 9⟩ : PrivateKey).G ≠ 1 ∧
      (⟨⟨27, 2, 26⟩, 4, 3, 9⟩ : PrivateKey).G <
        (⟨⟨27, 2, 26⟩, 4, 3, 9⟩ : PrivateKey).N - 1) :=
  ⟨by norm_num, by decide, by decide,
    claim8_generator_range 3 3 [2] ⟨⟨27, 2, 26⟩, 4, 3, 9⟩ (by norm_num) (by norm_num)
      (by decide) (by decide)⟩

/-- C8 counterexample: 0 is a legal candidate draw (0 < N - 1) and is
accepted by rejection sampling, so a generated key can have G = 0,
violating the claimed `2 ≤ G`. -/
theorem claim8_generator_range_refuted :
    GenerateKey 3 3 [0] = some ⟨⟨27, 0, 0⟩, 0, 3, 9⟩ ∧
    ¬ 2 ≤ (⟨⟨27, 0, 0⟩, 0, 3, 9⟩ : PrivateKey).G ∧ (0 : Nat) < 27 - 1 := by
  decide

/-! ### Claim C2: additive homomorphism of the combiners -/

/-- C2 (amended): for every generated key **whose generator `G` is not a
multiple of `P`**: combining two encryptions of `m1, m2 < P` with
`m1 + m2 < P` and decrypting yields `m1 + m2`; and for any non-empty list
of encryptions of plaintexts `< P`, the variadic combiner succeeds and
decrypting yields the sum of the plaintexts modulo `P`. -/
theorem claim2_homomorphic (p q : Nat) (gs : List Nat) (key : PrivateKey)
    (hp : p.Prime) (hq : q.Prime) (hgen : GenerateKey p q gs = some key)
    (hG : ¬ p ∣ key.G) :
    (∀ m1 m2 r1 r2 : Nat, m1 < p → m2 < p → m1 + m2 < p →
      ∃ ct1 ct2 ct, Encrypt key.toPublicKey r1 (natToBytes m1) = some ct1 ∧
        Encrypt key.toPublicKey r2 (natToBytes m2) = some ct2 ∧
        HomomorphicEncTwo key.toPublicKey ct1 ct2 = some ct ∧
        Decrypt key ct = DecResult.ok (natToBytes (m1 + m2))) ∧
    (∀ pairs : List (Nat × Nat), pairs ≠ [] → (∀ mr ∈ pairs, mr.1 < p) →
      ∃ cts ct, List.Forall₂
          (fun mr c => Encrypt key.toPublicKey mr.2 (natToBytes mr.1) = some c) pairs cts ∧
        HommorphicEncMultiple key.toPublicKey cts = some ct ∧
        Decrypt key ct = DecResult.ok (natToBytes ((pairs.map Prod.fst).sum % p))) := by
  obtain ⟨hP, hPS, hN, hGD, hGD1, hH, -⟩ := GenerateKey_spec hgen
  have hp2 := hp.two_le
  have hq2 := hq.two_le
  have hNpos : 0 < key.N := by
    rw [hN]
    exact Nat.mul_pos (Nat.mul_pos (by omega) (by omega)) (by omega)
  have hpN : p ≤ key.N := by
    rw [hN]
    calc p = p * 1 := (Nat.mul_one p).symm
      _ ≤ p * (p * q) := Nat.mul_le_mul_left p (Nat.mul_pos (by omega) (by omega))
      _ = p * p * q := by ring
  have hpdvdN : p ∣ key.N := by
    rw [hN]
    exact ⟨p * q, by ring⟩
  have hred : ∀ x y : Nat, x ≡ y [MOD key.N] → x ≡ y [MOD p * p] := by
    intro x y hxy
    rw [hN] at hxy
    exact Nat.ModEq.of_mul_right q hxy
  constructor
  · -- two-operand combiner
    intro m1 m2 r1 r2 hm1 hm2 hsum
    obtain ⟨hcong1, hlt1⟩ := encValue_spec key.toPublicKey p q hN hH hNpos m1 r1
    obtain ⟨hcong2, hlt2⟩ := encValue_spec key.toPublicKey p q hN hH hNpos m2 r2
    refine ⟨natToBytes (encValue key.toPublicKey m1 r1),
      natToBytes (encValue key.toPublicKey m2 r2),
      natToBytes (encValue key.toPublicKey m1 r1 * encValue key.toPublicKey m2 r2 % key.N),
      ?_, ?_, ?_, ?_⟩
    · rw [Encrypt_eq_some (by rw [bytesToNat_natToBytes]; omega), bytesToNat_natToBytes]
    · rw [Encrypt_eq_some (by rw [bytesToNat_natToBytes]; omega), bytesToNat_natToBytes]
    · simp only [HomomorphicEncTwo, bytesToNat_natToBytes]
      rw [if_neg (by rintro ⟨hcon, -⟩; omega)]
    · have hv : bytesToNat (natToBytes
          (encValue key.toPublicKey m1 r1 * encValue key.toPublicKey m2 r2 % key.N)) =
          encValue key.toPublicKey m1 r1 * encValue key.toPublicKey m2 r2 % key.N :=
        bytesToNat_natToBytes _
      have hcongv : encValue key.toPublicKey m1 r1 * encValue key.toPublicKey m2 r2 % key.N ≡
          key.G ^ ((m1 + key.N * r1) + (m2 + key.N * r2)) [MOD p * p] := by
        have h1 := hred _ _ (Nat.mod_modEq
          (encValue key.toPublicKey m1 r1 * encValue key.toPublicKey m2 r2) key.N)
        have h2 := hcong1.mul hcong2
        have h3 : key.G ^ (m1 + key.N * r1) * key.G ^ (m2 + key.N * r2) =
            key.G ^ ((m1 + key.N * r1) + (m2 + key.N * r2)) := by rw [← pow_add]
        exact h1.trans (h3 ▸ h2)
      have hdec := Decrypt_ok_of_congr key p hp hP hPS hGD hGD1 hG _
        ((m1 + key.N * r1) + (m2 + key.N * r2))
        (by rw [hv]; exact le_of_lt (Nat.mod_lt _ hNpos)) (by rw [hv]; exact hcongv)
      rw [hdec]
      have hmod : ((m1 + key.N * r1) + (m2 + key.N * r2)) % p = m1 + m2 := by
        obtain ⟨t, ht⟩ := hpdvdN
        rw [ht, show (m1 + p * t * r1) + (m2 + p * t * r2) =
          (m1 + m2) + p * (t * r1 + t * r2) by ring, Nat.add_mul_mod_self_left,
          Nat.mod_eq_of_lt hsum]
      rw [hmod]
  · -- variadic combiner
    intro pairs hne hplt
    obtain ⟨v, hv1, hv2, hv3⟩ := hommorphicLoop_spec key.toPublicKey p q hN hH hNpos
      pairs 1 0 (by rw [pow_zero]) (by omega)
    refine ⟨pairs.map fun mr => natToBytes (encValue key.toPublicKey mr.1 mr.2),
      natToBytes v, ?_, ?_, ?_⟩
    · rw [List.forall₂_map_right_iff, List.forall₂_same]
      intro mr hmr
      have hmrp := hplt mr hmr
      rw [Encrypt_eq_some (by rw [bytesToNat_natToBytes]; omega), bytesToNat_natToBytes]
    · simp only [HommorphicEncMultiple]
      rw [hv1]
      rfl
    · have hvb : bytesToNat (natToBytes v) = v := bytesToNat_natToBytes v
      have hdec := Decrypt_ok_of_congr key p hp hP hPS hGD hGD1 hG (natToBytes v)
        (0 + (pairs.map fun mr => mr.1 + key.N * mr.2).sum)
        (by rw [hvb]; exact hv3) (by rw [hvb]; exact hv2)
      rw [hdec]
      have hsum : (0 + (pairs.map fun mr => mr.1 + key.N * mr.2).sum) % p =
          (pairs.map Prod.fst).sum % p := by
        rw [Nat.zero_add]
        exact sum_blinded_modEq key.N p hpdvdN pairs
      rw [hsum]

/-- C2 witness: under the concrete key from primes 3, 3 and candidate 2,
both the two-operand and the variadic combiner results decrypt to the
plaintext sums (1 + 1 = 2, and [1, 1] summing to 2 mod 3). -/
theorem claim2_homomorphic_witness :
    Nat.Prime 3 ∧ GenerateKey 3 3 [2] = some ⟨⟨27, 2, 26⟩, 4, 3, 9⟩ ∧
    (∃ ct1 ct2 ct,
      Encrypt (⟨⟨27, 2, 26⟩, 4, 3, 9⟩ : PrivateKey).toPublicKey 1 (natToBytes 1) = some ct1 ∧
      Encrypt (⟨⟨27, 2, 26⟩, 4, 3, 9⟩ : PrivateKey).toPublicKey 2 (natToBytes 1) = some ct2 ∧
      HomomorphicEncTwo (⟨⟨27, 2, 26⟩, 4, 3, 9⟩ : PrivateKey).toPublicKey ct1 ct2 = some ct ∧
      Decrypt ⟨⟨27, 2, 26⟩, 4, 3, 9⟩ ct = DecResult.ok (natToBytes (1 + 1))) ∧
    (∃ cts ct, List.Forall₂
        (fun mr c => Encrypt (⟨⟨27, 2, 26⟩, 4, 3, 9⟩ : PrivateKey).toPublicKey mr.2
          (natToBytes mr.1) = some c) [(1, 1), (1, 2)] cts ∧
      HommorphicEncMultiple (⟨⟨27, 2, 26⟩, 4, 3, 9⟩ : PrivateKey).toPublicKey cts = some ct ∧
      Decrypt ⟨⟨27, 2, 26⟩, 4, 3, 9⟩ ct =
        DecResult.ok (natToBytes (([(1, 1), (1, 2)].map Prod.fst).sum % 3))) :=
  ⟨by norm_num, by decide,
    (claim2_homomorphic 3 3 [2] ⟨⟨27, 2, 26⟩, 4, 3, 9⟩ (by norm_num) (by norm_num)
      (by decide) (by decide)).1 1 1 1 2 (by norm_num) (by norm_num) (by norm_num),
    (claim2_homomorphic 3 3 [2] ⟨⟨27, 2, 26⟩, 4, 3, 9⟩ (by norm_num) (by norm_num)
      (by decide) (by decide)).2 [(1, 1), (1, 2)] (by decide) (by decide)⟩

/-- C2 counterexample: the claim as stated is false. Under the generated
key with G = 3 (a multiple of P, accepted by rejection sampling),
combining two encryptions of 0 and decrypting returns the bytes of 1, not
of 0 + 0. -/
theorem claim2_homomorphic_refuted :
    GenerateKey 3 3 [3] = some ⟨⟨27, 3, 0⟩, 0, 3, 9⟩ ∧
    Encrypt (⟨⟨27, 3, 0⟩, 0, 3, 9⟩ : PrivateKey).toPublicKey 1 (natToBytes 0) = some [] ∧
    HomomorphicEncTwo (⟨⟨27, 3, 0⟩, 0, 3, 9⟩ : PrivateKey).toPublicKey [] [] = some [] ∧
    Decrypt ⟨⟨27, 3, 0⟩, 0, 3, 9⟩ [] = DecResult.ok [1] ∧
    DecResult.ok [1] ≠ DecResult.ok (natToBytes (0 + 0)) := by
  decide

/-! ### Claim C3: plaintext bound check in Encrypt -/

/-- C3 (amended): encryption fails with `MessageTooLarge` **iff the
plaintext value strictly exceeds `N`** (the code tests `Cmp(N) == 1`,
i.e. `m > N`); a plaintext equal to `N` is accepted, contrary to the
claimed `m ≥ N` rejection. -/
theorem claim3_message_bound (pub : PublicKey) (r : Nat) (pt : List Nat) :
    Encrypt pub r pt = none ↔ pub.N < bytesToNat pt := by
  simp only [Encrypt]
  by_cases h : pub.N < bytesToNat pt
  · rw [if_pos h]
    simp [h]
  · rw [if_neg h]
    simp [h]

/-- C3 counterexample: a plaintext whose integer value equals `N` (here
12) is not rejected — encryption returns a ciphertext. -/
theorem claim3_message_bound_refuted :
    bytesToNat (natToBytes 12) = (⟨12, 2, 4⟩ : PublicKey).N ∧
    Encrypt ⟨12, 2, 4⟩ 1 (natToBytes 12) = some [4] := by
  decide

/-! ### Claim C4: ciphertext bound checks in Decrypt and the variadic combiner -/

theorem hommorphicLoop_eq_none_iff (pub : PublicKey) :
    ∀ (cs : List (List Nat)) (acc : Nat),
      hommorphicLoop pub acc cs = none ↔ ∃ cb ∈ cs, pub.N < bytesToNat cb := by
  intro cs
  induction cs with
  | nil => intro acc; simp [hommorphicLoop]
  | cons cb rest ih =>
      intro acc
      simp only [hommorphicLoop]
      by_cases h : pub.N < bytesToNat cb
      · rw [if_pos h]
        simp [h]
      · rw [if_neg h, ih]
        simp [h]

/-- C4 (amended): decryption fails with `CipherTooLarge` **iff the
ciphertext value strictly exceeds `N`** (a ciphertext equal to `N` is
accepted), and the variadic combiner fails with `CipherTooLarge` iff some
operand's value strictly exceeds `N`. -/
theorem claim4_cipher_bound :
    (∀ (priv : PrivateKey) (ct : List Nat),
      Decrypt priv ct = DecResult.errLargeCipher ↔ priv.N < bytesToNat ct) ∧
    (∀ (pub : PublicKey) (cs : List (List Nat)),
      HommorphicEncMultiple pub cs = none ↔ ∃ cb ∈ cs, pub.N < bytesToNat cb) := by
  constructor
  · intro priv ct
    by_cases h : priv.N < bytesToNat ct
    · rw [Decrypt_eq_errLargeCipher h]
      simp [h]
    · cases hmi : modInverse (((priv.GD : Int) - 1) / (priv.P : Int)) (priv.P : Int) with
      | none =>
          rw [Decrypt_eq_nilDereference h hmi]
          simp [h]
      | some b =>
          rw [Decrypt_eq_ok priv ct b h hmi]
          simp [h]
  · intro pub cs
    simp only [HommorphicEncMultiple]
    rw [Option.map_eq_none']
    exact hommorphicLoop_eq_none_iff pub cs 1

/-- C4 counterexample: under the generated key with N = 27, a ciphertext
decoding exactly to N is not rejected: decryption returns a plaintext and
the variadic combiner succeeds as well. -/
theorem claim4_cipher_bound_refuted :
    bytesToNat (natToBytes 27) = (⟨⟨27, 3, 0⟩, 0, 3, 9⟩ : PrivateKey).N ∧
    Decrypt ⟨⟨27, 3, 0⟩, 0, 3, 9⟩ (natToBytes 27) = DecResult.ok [1] ∧
    HommorphicEncMultiple (⟨⟨27, 3, 0⟩, 0, 3, 9⟩ : PrivateKey).toPublicKey
      [natToBytes 27] = some [] := by
  decide

/-! ### Claim C5: validation in the two-operand combiner -/

/-- C5 (amended): the two-operand combiner fails with `CipherTooLarge`
**iff both operands strictly exceed `N`** (the code uses `&&`); a single
oversized operand is not rejected, contrary to the claimed any-operand
validation. -/
theorem claim5_two_operand_validation (pub : PublicKey) (c1 c2 : List Nat) :
    HomomorphicEncTwo pub c1 c2 = none ↔
      (pub.N < bytesToNat c1 ∧ pub.N < bytesToNat c2) := by
  simp only [HomomorphicEncTwo]
  by_cases h : pub.N < bytesToNat c1 ∧ pub.N < bytesToNat c2
  · rw [if_pos h]
    simp [h]
  · rw [if_neg h]
    simp [h]

/-- C5 counterexample: one operand above `N = 12` (value 13) and one
below (value 5) — the combiner succeeds instead of rejecting. -/
theorem claim5_two_operand_validation_refuted :
    (⟨12, 2, 4⟩ : PublicKey).N < bytesToNat (natToBytes 13) ∧
    ¬ (⟨12, 2, 4⟩ : PublicKey).N < bytesToNat (natToBytes 5) ∧
    HomomorphicEncTwo ⟨12, 2, 4⟩ (natToBytes 13) (natToBytes 5) = some [5] := by
  decide

/-! ### Claim C6: the variadic combiner on an empty list -/

/-- C6 (amended): on an empty ciphertext list the variadic combiner does
**not** reject: it returns successfully with the byte encoding of the
accumulator's initial value 1. -/
theorem claim6_empty_combine (pub : PublicKey) :
    HommorphicEncMultiple pub [] = some (natToBytes 1) := rfl

/-- C6 counterexample: a concrete empty-list call returns a success value
(the bytes `[1]`), not an error. -/
theorem claim6_empty_combine_refuted :
    HommorphicEncMultiple ⟨12, 2, 4⟩ [] = some [1] ∧
    HommorphicEncMultiple ⟨12, 2, 4⟩ [] ≠ none := by
  decide

/-! ### Claim C9: decryption when l2 has no modular inverse -/

/-- C9: the code is wrong where the claim requires a clean error return.
For the reachable key generated from the draws p = 2, q = 3, g = 2, the
value `l2 = Div(GD - 1, P) = 0` has no inverse modulo `P = 2`, Go's
`ModInverse` returns nil, and `Decrypt` dereferences it in `Mul` — a
crash, not a returned error. The in-bound ciphertext `[5]` exhibits it. -/
theorem claim9_decrypt_nil_dereference :
    GenerateKey 2 3 [2] = some ⟨⟨12, 2, 4⟩, 2, 2, 4⟩ ∧
    bytesToNat [5] ≤ (⟨⟨12, 2, 4⟩, 2, 2, 4⟩ : PrivateKey).N ∧
    Decrypt ⟨⟨12, 2, 4⟩, 2, 2, 4⟩ [5] = DecResult.nilDereference := by
  decide

/-! ### Claim C10: minimality of all byte outputs -/

/-- C10: every byte sequence returned by encryption, decryption and both
homomorphic combiners is the minimal big-endian encoding of its value —
no leading zero byte, and the empty sequence whenever the value is 0. -/
theorem claim10_minimal_encodings :
    (∀ (pub : PublicKey) (r : Nat) (pt ct : List Nat),
      Encrypt pub r pt = some ct → MinimalBigEndian ct) ∧
    (∀ (priv : PrivateKey) (ct out : List Nat),
      Decrypt priv ct = DecResult.ok out → MinimalBigEndian out) ∧
    (∀ (pub : PublicKey) (c1 c2 ct : List Nat),
      HomomorphicEncTwo pub c1 c2 = some ct → MinimalBigEndian ct) ∧
    (∀ (pub : PublicKey) (cs : List (List Nat)) (ct : List Nat),
      HommorphicEncMultiple pub cs = some ct → MinimalBigEndian ct) := by
  refine ⟨?_, ?_, ?_, ?_⟩
  · intro pub r pt ct h
    simp only [Encrypt] at h
    split at h
    · cases h
    · cases h
      exact minimalBigEndian_natToBytes _
  · intro priv ct out h
    by_cases hb : priv.N < bytesToNat ct
    · rw [Decrypt_eq_errLargeCipher hb] at h
      cases h
    · cases hmi : modInverse (((priv.GD : Int) - 1) / (priv.P : Int)) (priv.P : Int) with
      | none =>
          rw [Decrypt_eq_nilDereference hb hmi] at h
          cases h
      | some b =>
          rw [Decrypt_eq_ok priv ct b hb hmi] at h
          cases h
          exact minimalBigEndian_natToBytes _
  · intro pub c1 c2 ct h
    simp only [HomomorphicEncTwo] at h
    split at h
    · cases h
    · cases h
      exact minimalBigEndian_natToBytes _
  · intro pub cs ct h
    simp only [HommorphicEncMultiple] at h
    obtain ⟨v, -, hv2⟩ := Option.map_eq_some'.mp h
    rw [← hv2]
    exact minimalBigEndian_natToBytes v

end OkamotoUchiyama
